import Mathlib

/-!
Verification development for the Truss architectural-boundary checker.

The analysis pipeline (import extraction and local-import resolution,
dependency-edge aggregation, layer matching, rule evaluation, suppression
filtering and orchestration) is shallowly embedded below.  JavaScript
strings are modeled by `String`, but every operation on them is implemented
over `String.toList` so that all definitions evaluate inside the kernel.
JavaScript exceptions are modeled by `Except JsErr`; the two error kinds
distinguish `ConfigError` instances from every other thrown value, which is
exactly the distinction the orchestrator's catch clause makes.
`localeCompare` of the sort comparators is modeled as code-point
lexicographic comparison.  The filesystem is an abstract map from absolute
path to entry kind, and the TypeScript parser (an external library) is
abstracted to the list of detected import sites of a file.
-/

namespace Truss

/-- Code-point comparison of character lists; models a negative
`localeCompare` result and the `<` of path strings. -/
def charsLt : List Char → List Char → Bool
  | [], [] => false
  | [], _ :: _ => true
  | _ :: _, [] => false
  | a :: as, b :: bs =>
    if a < b then true
    else if b < a then false
    else charsLt as bs

/-- Strict order on strings via their character lists. -/
def strLt (a b : String) : Bool :=
  charsLt a.toList b.toList

/-- Model of JavaScript `String.prototype.startsWith`. -/
def jsStartsWith (s p : String) : Bool :=
  p.toList.isPrefixOf s.toList

/-- Model of JavaScript `String.prototype.endsWith`. -/
def jsEndsWith (s p : String) : Bool :=
  p.toList.isSuffixOf s.toList

/-- Source `matchLayer` normalization: `pattern.replace(/\x2a\x2a$/, "")`
strips one trailing `**` marker. -/
def normalizePattern (p : String) : String :=
  if jsEndsWith p "**" then String.mk (p.toList.dropLast.dropLast) else p

/-- Split a character list at `/` separators (model of `split("/")`). -/
def splitSlash : List Char → List (List Char)
  | [] => [[]]
  | c :: rest =>
    let r := splitSlash rest
    if c = '/' then [] :: r
    else
      match r with
      | [] => [[c]]
      | h :: t => (c :: h) :: t

/-- Join components with `/` separators (model of `join("/")`). -/
def joinSlash : List (List Char) → List Char
  | [] => []
  | [x] => x
  | x :: xs => x ++ '/' :: joinSlash xs

/-- Nonempty path components of a POSIX path string. -/
def pathComponents (p : String) : List (List Char) :=
  (splitSlash p.toList).filter (fun c => !c.isEmpty)

/-- Normalization pass of `node:path` resolution on an absolute path's
components: `.` vanishes and `..` pops (and is dropped at the root). -/
def normAbs (cs : List (List Char)) : List (List Char) :=
  cs.foldl
    (fun acc c =>
      if c = ['.'] then acc
      else if c = ['.', '.'] then acc.dropLast
      else acc ++ [c])
    []

/-- Render normalized components as an absolute POSIX path. -/
def joinAbsolute (cs : List (List Char)) : String :=
  String.mk ('/' :: joinSlash cs)

/-- Model of POSIX `path.resolve` applied to a single absolute path. -/
def absNormalize (p : String) : String :=
  joinAbsolute (normAbs (pathComponents p))

/-- Model of POSIX `path.resolve(base, p)` with `base` absolute. -/
def resolvePath (base p : String) : String :=
  if jsStartsWith p "/" then absNormalize p
  else absNormalize (base ++ "/" ++ p)

/-- Model of POSIX `path.dirname` on an absolute normalized path. -/
def dirnamePath (p : String) : String :=
  joinAbsolute ((pathComponents p).dropLast)

/-- Model of POSIX `path.join(a, b)` with `a` absolute. -/
def joinPath (a b : String) : String :=
  absNormalize (a ++ "/" ++ b)

/-- Drop the common leading components of two component lists. -/
def dropCommon : List (List Char) → List (List Char) → List (List Char) × List (List Char)
  | [], t => ([], t)
  | a :: f, [] => (a :: f, [])
  | a :: f, b :: t => if a = b then dropCommon f t else (a :: f, b :: t)

/-- Model of POSIX `path.relative(fromP, toP)` for absolute arguments. -/
def posixRelative (fromP toP : String) : String :=
  let pr := dropCommon (normAbs (pathComponents fromP)) (normAbs (pathComponents toP))
  String.mk (joinSlash (List.replicate pr.1.length ['.', '.'] ++ pr.2))

/-- Source `toRepoRelativePosix`: repo-relative POSIX path of an absolute
path, or `none` when the path lies outside the repo root.  On POSIX the
final `split(path.sep).join("/")` of the source is the identity. -/
def toRepoRelativePosix (repoRoot absPath : String) : Option String :=
  let rel := posixRelative repoRoot absPath
  if jsStartsWith rel ".." || jsStartsWith rel "/" then none else some rel

/-- Kind of a filesystem entry as observed by `fs.existsSync` and
`fs.statSync`: absent, a regular file, an existing non-file, or an entry
whose `statSync` throws (permission or race). -/
inductive FsEntry
  | absent
  | file
  | notFile
  | statThrows
deriving DecidableEq

/-- Error kinds of thrown JavaScript values: a `ConfigError` instance
versus anything else.  This is the only distinction `runCheck`'s catch
clause makes. -/
inductive JsErr
  | configErr
  | otherErr
deriving DecidableEq

/-- Source `RESOLVABLE_EXTENSIONS`, in declared order. -/
def RESOLVABLE_EXTENSIONS : List String :=
  [".ts", ".tsx", ".js", ".jsx", ".mts", ".cts", ".mjs", ".cjs"]

/-- Candidate list of source `resolveImportToFile`: the raw path, the raw
path with each extension appended, then `index` plus each extension under
the raw path taken as a directory. -/
def candidatePaths (unresolved : String) : List String :=
  unresolved ::
    (RESOLVABLE_EXTENSIONS.map (fun ext => unresolved ++ ext) ++
      RESOLVABLE_EXTENSIONS.map (fun ext => joinPath unresolved ("index" ++ ext)))

/-- Candidate loop of source `resolveImportToFile`: skip absent entries and
existing non-files, return the repo-relative path at the first regular
file, and propagate a throwing `statSync`. -/
def tryCandidates (fsys : String → FsEntry) (repoRoot : String) :
    List String → Except JsErr (Option String)
  | [] => .ok none
  | c :: rest =>
    match fsys c with
    | .absent => tryCandidates fsys repoRoot rest
    | .statThrows => .error .otherErr
    | .notFile => tryCandidates fsys repoRoot rest
    | .file => .ok (toRepoRelativePosix repoRoot c)

/-- Unresolved absolute path of a local specifier: a `/`-specifier is
resolved against the repo root with its leading slash removed, any other
against the directory of the importing file. -/
def unresolvedPath (repoRoot fromFile specifier : String) : String :=
  let fromAbs := resolvePath repoRoot fromFile
  let baseDir := dirnamePath fromAbs
  if jsStartsWith specifier "/" then
    resolvePath repoRoot (String.mk (specifier.toList.drop 1))
  else resolvePath baseDir specifier

/-- Source `resolveImportToFile`. -/
def resolveImportToFile (fsys : String → FsEntry)
    (repoRoot fromFile specifier : String) : Except JsErr (Option String) :=
  if !jsStartsWith specifier "." && !jsStartsWith specifier "/" then .ok none
  else tryCandidates fsys repoRoot (candidatePaths (unresolvedPath repoRoot fromFile specifier))

/-- Kind tag of a dependency edge. -/
inductive ImportKind
  | internal
  | external
deriving DecidableEq

/-- Source `DependencyEdge` record. -/
structure DependencyEdge where
  fromFile : String
  toFile : String
  importText : String
  line : Nat
  importKind : ImportKind
deriving DecidableEq

/-- One import site detected by the AST walk of `parseImportsFromFile`:
the specifier string together with the 1-based line and trimmed source
text of the carrying node.  The TypeScript parser is external, so a file's
parse result is abstracted to this list. -/
structure RawImport where
  specifier : String
  line : Nat
  text : String
deriving DecidableEq

/-- Outcome of reading one file: `existsSync` false, a read that throws,
or parsed content abstracted to its detected import sites. -/
inductive ExtractOutcome
  | missing
  | unreadable
  | content (imports : List RawImport)

/-- The `pushEdge` loop of `parseImportsFromFile` over the detected import
sites, in source order. -/
def edgesForImports (fsys : String → FsEntry) (repoRoot file : String) :
    List RawImport → Except JsErr (List DependencyEdge)
  | [] => .ok []
  | imp :: rest =>
    match resolveImportToFile fsys repoRoot file imp.specifier with
    | .error e => .error e
    | .ok r =>
      match edgesForImports fsys repoRoot file rest with
      | .error e => .error e
      | .ok tail =>
        match r with
        | none => .ok tail
        | some toFile =>
          .ok ({ fromFile := file, toFile := toFile, importText := imp.text,
                 line := imp.line, importKind := .internal } :: tail)

/-- Source `parseImportsFromFile`: a missing file yields zero edges, a
throwing read propagates, otherwise the detected imports are resolved. -/
def parseImportsFromFile (fsys : String → FsEntry) (readF : String → ExtractOutcome)
    (repoRoot file : String) : Except JsErr (List DependencyEdge) :=
  match readF (resolvePath repoRoot file) with
  | .missing => .ok []
  | .unreadable => .error .otherErr
  | .content imports => edgesForImports fsys repoRoot file imports

/-- Insert an element behind every already-placed element that compares
before-or-tied; the insertion step of a stable sort. -/
def insertSorted (le : α → α → Bool) (x : α) : List α → List α
  | [] => [x]
  | y :: ys => if le y x then y :: insertSorted le x ys else x :: y :: ys

/-- Left fold of stable insertion. -/
def stableSortAux (le : α → α → Bool) : List α → List α → List α
  | acc, [] => acc
  | acc, x :: xs => stableSortAux le (insertSorted le x acc) xs

/-- Stable sort; models JavaScript `Array.prototype.sort`, which is
required to be stable. -/
def stableSortBy (le : α → α → Bool) (l : List α) : List α :=
  stableSortAux le [] l

/-- The comparator of `buildDependencyEdges` as a before-or-tied test:
`fromFile` ascending, then `line` ascending, then `toFile` ascending. -/
def edgeLE (a b : DependencyEdge) : Bool :=
  if strLt a.fromFile b.fromFile then true
  else if strLt b.fromFile a.fromFile then false
  else if a.line < b.line then true
  else if b.line < a.line then false
  else !strLt b.toFile a.toFile

/-- The per-file extraction loop of source `buildDependencyEdges`:
concatenate each file's edges, propagating any thrown error. -/
def collectEdges (fsys : String → FsEntry) (readF : String → ExtractOutcome)
    (repoRoot : String) : List String → Except JsErr (List DependencyEdge)
  | [] => .ok []
  | f :: fs =>
    match parseImportsFromFile fsys readF repoRoot f with
    | .error e => .error e
    | .ok es =>
      match collectEdges fsys readF repoRoot fs with
      | .error e => .error e
      | .ok rest => .ok (es ++ rest)

/-- Source `buildDependencyEdges`: concatenate per-file results and sort
by `(fromFile, line, toFile)`. -/
def buildDependencyEdges (fsys : String → FsEntry) (readF : String → ExtractOutcome)
    (repoRoot : String) (files : List String) : Except JsErr (List DependencyEdge) :=
  (collectEdges fsys readF repoRoot files).map (stableSortBy edgeLE)

/-- Per-file edges on the success path; an erroring file contributes the
empty list.  Used to state what `collectEdges` concatenates. -/
def okEdges (fsys : String → FsEntry) (readF : String → ExtractOutcome)
    (repoRoot file : String) : List DependencyEdge :=
  match parseImportsFromFile fsys readF repoRoot file with
  | .ok l => l
  | .error _ => []

/-- Source `Rule` record of the validated configuration. -/
structure Rule where
  name : String
  «from» : String
  disallow : List String
  message : Option String
deriving DecidableEq

/-- Source suppression entry of the validated configuration. -/
structure Suppression where
  file : String
  rule : String
  reason : String
deriving DecidableEq

/-- Shape of the validated configuration as consumed by the core (layers
in declaration order, rules in declared order, optional suppressions in
declared order), per the usage in the source and the interface contract of
the spec. -/
structure TrussConfig where
  layers : List (String × List String)
  rules : List Rule
  suppressions : Option (List Suppression)
deriving DecidableEq

/-- Source `Violation` record. -/
structure Violation where
  ruleName : String
  fromLayer : String
  toLayer : String
  edge : DependencyEdge
  reason : String
deriving DecidableEq

/-- Source `SuppressedViolation` record. -/
structure SuppressedViolation extends Violation where
  suppressionReason : String
deriving DecidableEq

/-- Source `TrussReport` summary block. -/
structure ReportSummary where
  unsuppressedCount : Nat
  suppressedCount : Nat
  totalCount : Nat
deriving DecidableEq

/-- Source `TrussReport` record. -/
structure TrussReport where
  checkedFiles : Nat
  edges : Nat
  unsuppressed : List Violation
  suppressed : List SuppressedViolation
  summary : ReportSummary
deriving DecidableEq

/-- Inner pattern loop of source `matchLayer`. -/
def matchLayerPats (file : String) (patterns : List String) : Bool :=
  patterns.any (fun p => jsStartsWith file (normalizePattern p))

/-- Source `matchLayer`: first declared layer with a matching pattern. -/
def matchLayer (file : String) : List (String × List String) → Option String
  | [] => none
  | (layerName, patterns) :: rest =>
    if matchLayerPats file patterns then some layerName
    else matchLayer file rest

/-- JavaScript falsiness of a `string | null` value: `null` and the empty
string are falsy. -/
def jsFalsy : Option String → Bool
  | none => true
  | some s => s == ""

/-- Shared tail of `getLayer` on a cache miss: compute `matchLayer` and
store the result only when it is truthy. -/
def computeLayer (layers : List (String × List String))
    (cache : List (String × String)) (file : String) :
    Option String × List (String × String) :=
  match matchLayer file layers with
  | some l => if l == "" then (some l, cache) else (some l, (file, l) :: cache)
  | none => (none, cache)

/-- Source `getLayer` of `evaluateRules`: consult the memo map first
(`if (cached) return cached` falls through on a falsy hit), else compute
and possibly cache. -/
def getLayer (layers : List (String × List String))
    (cache : List (String × String)) (file : String) :
    Option String × List (String × String) :=
  match cache.find? (fun p => p.1 == file) with
  | some p => if p.2 == "" then computeLayer layers cache file else (some p.2, cache)
  | none => computeLayer layers cache file

/-- The violation built by the push of source `evaluateRules`. -/
def violationFor (rule : Rule) (fromLayer toLayer : String) (edge : DependencyEdge) : Violation :=
  { ruleName := rule.name, fromLayer := fromLayer, toLayer := toLayer, edge := edge,
    reason := rule.message.getD (fromLayer ++ " layer must not depend on " ++ toLayer ++ " layer.") }

/-- Inner rule loop of source `evaluateRules` for one edge with resolved
layers: every declared rule is tried, with no short-circuit. -/
def ruleViolations (rules : List Rule) (fromLayer toLayer : String)
    (edge : DependencyEdge) : List Violation :=
  rules.filterMap (fun rule =>
    if rule.«from» != fromLayer then none
    else if !rule.disallow.contains toLayer then none
    else some (violationFor rule fromLayer toLayer edge))

/-- Rules that fire on a `(fromLayer, toLayer)` pair, in declared order. -/
def matchingRules (rules : List Rule) (fromLayer toLayer : String) : List Rule :=
  rules.filter (fun r => r.«from» == fromLayer && r.disallow.contains toLayer)

/-- One iteration of the edge loop of source `evaluateRules`: look both
endpoints up through the memo, skip the edge when either lookup is falsy
(`if (!fromLayer || !toLayer) continue`). -/
def evalEdge (config : TrussConfig)
    (st : List Violation × List (String × String)) (edge : DependencyEdge) :
    List Violation × List (String × String) :=
  let fr := getLayer config.layers st.2 edge.fromFile
  let tr := getLayer config.layers fr.2 edge.toFile
  if jsFalsy fr.1 || jsFalsy tr.1 then (st.1, tr.2)
  else
    match fr.1, tr.1 with
    | some f, some t => (st.1 ++ ruleViolations config.rules f t edge, tr.2)
    | _, _ => (st.1, tr.2)

/-- Source `evaluateRules`: fold the edge loop over the edge list with an
initially empty memo map. -/
def evaluateRules (config : TrussConfig) (edges : List DependencyEdge) :
    List Violation × List (String × String) :=
  edges.foldl (evalEdge config) ([], [])

/-- Memo map state after a sequence of prior `getLayer` lookups starting
from the empty cache. -/
def cacheAfter (layers : List (String × List String)) (files : List String) :
    List (String × String) :=
  files.foldl (fun c f => (getLayer layers c f).2) []

/-- The `suppressions.find(...)` of source `applySuppressions`: first
declared entry matching `(file, rule name)`. -/
def findSuppression (supps : List Suppression) (v : Violation) : Option Suppression :=
  supps.find? (fun x => x.file == v.edge.fromFile && x.rule == v.ruleName)

/-- Partition loop of source `applySuppressions`, preserving input order
within each bucket. -/
def partitionSuppressions (supps : List Suppression) :
    List Violation → List Violation × List SuppressedViolation
  | [] => ([], [])
  | v :: rest =>
    let pr := partitionSuppressions supps rest
    match findSuppression supps v with
    | some s => (pr.1, ⟨v, s.reason⟩ :: pr.2)
    | none => (v :: pr.1, pr.2)

/-- The `byLocation` comparator of source `applySuppressions` as a
before-or-tied test: `fromFile` ascending, then `line` ascending. -/
def locLE (a b : Violation) : Bool :=
  if strLt a.edge.fromFile b.edge.fromFile then true
  else if strLt b.edge.fromFile a.edge.fromFile then false
  else a.edge.line ≤ b.edge.line

/-- `byLocation` on suppressed violations. -/
def locLES (a b : SuppressedViolation) : Bool :=
  locLE a.toViolation b.toViolation

/-- Source `applySuppressions`: partition by first matching suppression
entry, then sort both buckets by `(fromFile, line)`. -/
def applySuppressions (config : TrussConfig) (violations : List Violation) :
    List Violation × List SuppressedViolation :=
  let pr := partitionSuppressions (config.suppressions.getD []) violations
  (stableSortBy locLE pr.1, stableSortBy locLES pr.2)

/-- Source `ExitCode` values. -/
inductive ExitCode
  | OK
  | VIOLATIONS
  | CONFIG_ERROR
  | INTERNAL_ERROR
deriving DecidableEq

/-- Numeric value of each exit code as declared in `types.ts`. -/
def ExitCode.toCode : ExitCode → Nat
  | .OK => 0
  | .VIOLATIONS => 1
  | .CONFIG_ERROR => 2
  | .INTERNAL_ERROR => 3

/-- Source `emptyReport`. -/
def emptyReport : TrussReport :=
  { checkedFiles := 0, edges := 0, unsuppressed := [], suppressed := [],
    summary := { unsuppressedCount := 0, suppressedCount := 0, totalCount := 0 } }

/-- Inputs of one `runCheck` invocation.  `loadConfig` and `discoverFiles`
stand for the external collaborators `loadTrussConfig` and
`discoverSourceFiles` (modelled from the spec: both modules live outside
the analyzed sources; each either returns a value or throws, and a
configuration-load failure throws the `ConfigError` kind). -/
structure CheckEnv where
  loadConfig : Except JsErr TrussConfig
  discoverFiles : TrussConfig → Except JsErr (List String)
  fsys : String → FsEntry
  readF : String → ExtractOutcome
  repoRoot : String

/-- Result of a completed pipeline: evaluate rules over the built edges,
apply suppressions, assemble the report and pick the exit code (tail of
the `try` block of source `runCheck`). -/
def successResult (config : TrussConfig) (files : List String)
    (edges : List DependencyEdge) : ExitCode × TrussReport :=
  let violations := (evaluateRules config edges).1
  let pr := applySuppressions config violations
  let report : TrussReport :=
    { checkedFiles := files.length, edges := edges.length,
      unsuppressed := pr.1, suppressed := pr.2,
      summary := { unsuppressedCount := pr.1.length, suppressedCount := pr.2.length,
                   totalCount := pr.1.length + pr.2.length } }
  (if report.summary.unsuppressedCount > 0 then ExitCode.VIOLATIONS else ExitCode.OK,
   report)

/-- Body of the `try` block of source `runCheck`: load, discover, build
edges, then produce the completed-pipeline result. -/
def tryRunCheck (env : CheckEnv) : Except JsErr (ExitCode × TrussReport) :=
  match env.loadConfig with
  | .error e => .error e
  | .ok config =>
  match env.discoverFiles config with
  | .error e => .error e
  | .ok files =>
  if files.length = 0 then Except.error JsErr.configErr
  else
    match buildDependencyEdges env.fsys env.readF env.repoRoot files with
    | .error e => .error e
    | .ok edges => .ok (successResult config files edges)

/-- Source `runCheck`: the catch clause maps a `ConfigError` to
`CONFIG_ERROR` and anything else to `INTERNAL_ERROR`, both with the empty
report. -/
def runCheck (env : CheckEnv) : ExitCode × TrussReport :=
  match tryRunCheck env with
  | .ok r => r
  | .error .configErr => (ExitCode.CONFIG_ERROR, emptyReport)
  | .error .otherErr => (ExitCode.INTERNAL_ERROR, emptyReport)

/-- Source `GraphEdge`: endpoints are node indices into the node store,
breaking the mutual object reference of the source representation. -/
structure GraphEdge where
  «from» : Nat
  «to» : Nat
  meta : DependencyEdge
deriving DecidableEq

/-- Source `GraphNode`. -/
structure GraphNode where
  file : String
  outgoing : List GraphEdge
  incoming : List GraphEdge
deriving DecidableEq

/-- Source `createGraphNode`. -/
def createGraphNode (file : String) : GraphNode :=
  { file := file, outgoing := [], incoming := [] }

/-- Apply a function to the node at one index of the store. -/
def updateNode : List GraphNode → Nat → (GraphNode → GraphNode) → List GraphNode
  | [], _, _ => []
  | n :: ns, 0, f => f n :: ns
  | n :: ns, Nat.succ i, f => n :: updateNode ns i f

/-- Source `createGraphEdge`: build the edge, push it onto the source
node's outgoing list and the target node's incoming list. -/
def createGraphEdge (store : List GraphNode) (fromId toId : Nat)
    (meta : DependencyEdge) : GraphEdge × List GraphNode :=
  let edge : GraphEdge := { «from» := fromId, «to» := toId, meta := meta }
  let s1 := updateNode store fromId (fun n => { n with outgoing := n.outgoing ++ [edge] })
  let s2 := updateNode s1 toId (fun n => { n with incoming := n.incoming ++ [edge] })
  (edge, s2)

/-- Ascending w.r.t. a before-or-tied boolean comparator. -/
def SortedBy (le : α → α → Bool) (l : List α) : Prop :=
  List.Pairwise (fun a b => le a b = true) l

/-- Every cache entry records the memoized `matchLayer` answer for its
key. -/
def CacheOK (layers : List (String × List String)) (cache : List (String × String)) : Prop :=
  ∀ p ∈ cache, matchLayer p.1 layers = some p.2

/-- Cache-free contribution of one edge to the violation list: skipped
when either endpoint's layer lookup is falsy, else one violation per
matching rule. -/
def edgeContrib (config : TrussConfig) (e : DependencyEdge) : List Violation :=
  let f := matchLayer e.fromFile config.layers
  let t := matchLayer e.toFile config.layers
  if jsFalsy f || jsFalsy t then []
  else
    match f, t with
    | some a, some b => ruleViolations config.rules a b e
    | _, _ => []

/-- Concatenation of per-file edge lists, in file order. -/
def flatEdges (g : String → List DependencyEdge) : List String → List DependencyEdge
  | [] => []
  | f :: fs => g f ++ flatEdges g fs

/-- Concatenation of the cache-free per-edge contributions. -/
def contribAll (config : TrussConfig) : List DependencyEdge → List Violation
  | [] => []
  | e :: es => edgeContrib config e ++ contribAll config es

/-- Demo configuration: files under `a` form layer `app`, files under `c`
form layer `lib`, and `app` must not depend on `lib`. -/
def cfgDemo : TrussConfig :=
  { layers := [("app", ["a"]), ("lib", ["c"])],
    rules := [{ name := "no-app-to-lib", «from» := "app", disallow := ["lib"], message := none }],
    suppressions := none }

/-- Demo filesystem: only `/repo/c.ts` exists, as a regular file. -/
def fsysDemo : String → FsEntry :=
  fun p => if p == "/repo/c.ts" then FsEntry.file else FsEntry.absent

/-- Demo reader: `a.ts` parses to one local import of `./c`; everything
else is missing. -/
def readFGood : String → ExtractOutcome :=
  fun p =>
    if p == "/repo/a.ts" then
      ExtractOutcome.content [{ specifier := "./c", line := 1, text := "import x from \"./c\"" }]
    else ExtractOutcome.missing

/-- Same reader, but `b.ts` exists and its read throws. -/
def readFBad : String → ExtractOutcome :=
  fun p =>
    if p == "/repo/a.ts" then
      ExtractOutcome.content [{ specifier := "./c", line := 1, text := "import x from \"./c\"" }]
    else if p == "/repo/b.ts" then ExtractOutcome.unreadable
    else ExtractOutcome.missing

/-- Run inputs where every discovered file is readable. -/
def envGood : CheckEnv :=
  { loadConfig := .ok cfgDemo, discoverFiles := fun _ => .ok ["a.ts", "b.ts"],
    fsys := fsysDemo, readF := readFGood, repoRoot := "/repo" }

/-- Identical run inputs except that reading `b.ts` throws. -/
def envBad : CheckEnv :=
  { loadConfig := .ok cfgDemo, discoverFiles := fun _ => .ok ["a.ts", "b.ts"],
    fsys := fsysDemo, readF := readFBad, repoRoot := "/repo" }

/-- Identical run inputs except that `statSync` throws on the first
resolution candidate `/repo/c` of the import in `a.ts`. -/
def envStat : CheckEnv :=
  { loadConfig := .ok cfgDemo, discoverFiles := fun _ => .ok ["a.ts", "b.ts"],
    fsys := fun p => if p == "/repo/c" then FsEntry.statThrows else fsysDemo p,
    readF := readFGood, repoRoot := "/repo" }

/-- Run inputs whose configuration load throws a `ConfigError`. -/
def envCfgErr : CheckEnv :=
  { loadConfig := .error .configErr, discoverFiles := fun _ => .ok ["a.ts"],
    fsys := fun _ => FsEntry.absent, readF := fun _ => ExtractOutcome.missing,
    repoRoot := "/repo" }

/-- Configuration with a layer whose name is the empty string, matching
every file, and one rule firing on it. -/
def cfgEmptyLayer : TrussConfig :=
  { layers := [("", [""])],
    rules := [{ name := "r", «from» := "", disallow := [""], message := none }],
    suppressions := none }

/-- A concrete dependency edge. -/
def edgeAB : DependencyEdge :=
  { fromFile := "a.ts", toFile := "b.ts", importText := "import x", line := 1,
    importKind := .internal }

/-- Configuration with a single `ui` layer over `src/ui/**`. -/
def cfgUi : TrussConfig :=
  { layers := [("ui", ["src/ui/**"])], rules := [], suppressions := none }

/-- An edge between files that belong to no declared layer. -/
def edgeXY : DependencyEdge :=
  { fromFile := "x", toFile := "y", importText := "import y", line := 3,
    importKind := .internal }

/-- A two-node store for graph-edge creation. -/
def storeW : List GraphNode :=
  [createGraphNode "a.ts", createGraphNode "b.ts"]

/-! Order facts for the code-point comparison. -/

theorem charsLt_irrefl : ∀ l : List Char, charsLt l l = false := by
  intro l
  induction l with
  | nil => rfl
  | cons x xs ih => simp [charsLt, ih]

theorem charsLt_asymm : ∀ a b : List Char, charsLt a b = true → charsLt b a = false := by
  intro a
  induction a with
  | nil => intro b h; cases b with
    | nil => simp [charsLt] at h
    | cons y bs => rfl
  | cons x as ih =>
    intro b h
    cases b with
    | nil => simp [charsLt] at h
    | cons y bs =>
      simp only [charsLt] at h ⊢
      by_cases hxy : x < y
      · have : ¬ y < x := lt_asymm hxy
        simp [hxy, this]
      · by_cases hyx : y < x
        · simp [hxy, hyx] at h
        · simp [hxy, hyx] at h ⊢
          exact ih bs h

theorem charsLt_trans : ∀ a b c : List Char,
    charsLt a b = true → charsLt b c = true → charsLt a c = true := by
  intro a
  induction a with
  | nil =>
    intro b c hab hbc
    cases b with
    | nil => simp [charsLt] at hab
    | cons y bs =>
      cases c with
      | nil => simp [charsLt] at hbc
      | cons z cs => rfl
  | cons x as ih =>
    intro b c hab hbc
    cases b with
    | nil => simp [charsLt] at hab
    | cons y bs =>
      cases c with
      | nil => simp [charsLt] at hbc
      | cons z cs =>
        simp only [charsLt] at hab hbc ⊢
        by_cases hxy : x < y
        · by_cases hyz : y < z
          · simp [lt_trans hxy hyz]
          · by_cases hzy : z < y
            · simp [hyz, hzy] at hbc
            · have hyez : y = z := le_antisymm (not_lt.mp hzy) (not_lt.mp hyz)
              subst hyez
              simp [hxy]
        · by_cases hyx : y < x
          · simp [hxy, hyx] at hab
          · have hxey : x = y := le_antisymm (not_lt.mp hyx) (not_lt.mp hxy)
            subst hxey
            simp only [hxy, if_neg, lt_irrefl, if_false] at hab
            by_cases hyz : x < z
            · simp [hyz]
            · by_cases hzy : z < x
              · simp [hyz, hzy] at hbc
              · simp only [hyz, if_neg, hzy, if_false] at hbc ⊢
                exact ih bs cs hab hbc

theorem charsLt_eq_of_not_lt : ∀ a b : List Char,
    charsLt a b = false → charsLt b a = false → a = b := by
  intro a
  induction a with
  | nil =>
    intro b hab _
    cases b with
    | nil => rfl
    | cons y bs => simp [charsLt] at hab
  | cons x as ih =>
    intro b hab hba
    cases b with
    | nil => simp [charsLt] at hba
    | cons y bs =>
      simp only [charsLt] at hab hba
      by_cases hxy : x < y
      · simp [hxy] at hab
      · by_cases hyx : y < x
        · simp [hxy, hyx] at hba
        · have hxey : x = y := le_antisymm (not_lt.mp hyx) (not_lt.mp hxy)
          subst hxey
          simp only [lt_irrefl, if_false, if_neg] at hab hba
          rw [ih bs hab hba]

theorem string_toList_inj : ∀ a b : String, a.toList = b.toList → a = b := by
  intro a b h
  cases a
  cases b
  simp only [String.toList] at h
  rw [h]

theorem strLt_irrefl (a : String) : strLt a a = false :=
  charsLt_irrefl a.toList

theorem strLt_asymm (a b : String) : strLt a b = true → strLt b a = false :=
  charsLt_asymm a.toList b.toList

theorem strLt_trans (a b c : String) :
    strLt a b = true → strLt b c = true → strLt a c = true :=
  charsLt_trans a.toList b.toList c.toList

theorem strLt_eq_of_not_lt (a b : String) :
    strLt a b = false → strLt b a = false → a = b := by
  intro h1 h2
  exact string_toList_inj a b (charsLt_eq_of_not_lt a.toList b.toList h1 h2)

/-! The stable-sort toolkit. -/

theorem insertSorted_perm (le : α → α → Bool) (x : α) :
    ∀ l : List α, (insertSorted le x l).Perm (x :: l) := by
  intro l
  induction l with
  | nil => exact List.Perm.refl _
  | cons y ys ih =>
    simp only [insertSorted]
    by_cases h : le y x = true
    · simp only [h, if_true]
      exact (ih.cons y).trans (List.Perm.swap x y ys)
    · simp only [h, if_false]
      exact List.Perm.refl _

theorem insertSorted_mem (le : α → α → Bool) (x : α) (l : List α) (z : α) :
    z ∈ insertSorted le x l ↔ z = x ∨ z ∈ l := by
  rw [(insertSorted_perm le x l).mem_iff]
  simp

theorem stableSortAux_perm (le : α → α → Bool) :
    ∀ (l acc : List α), (stableSortAux le acc l).Perm (acc ++ l) := by
  intro l
  induction l with
  | nil => intro acc; simp [stableSortAux]
  | cons x xs ih =>
    intro acc
    simp only [stableSortAux]
    refine (ih (insertSorted le x acc)).trans ?_
    refine (((insertSorted_perm le x acc).append_right xs).trans ?_)
    exact List.perm_middle.symm

theorem stableSortBy_perm (le : α → α → Bool) (l : List α) :
    (stableSortBy le l).Perm l := by
  simpa using stableSortAux_perm le l []

theorem insertSorted_pairwise (le : α → α → Bool)
    (hTot : ∀ a b, le a b = true ∨ le b a = true)
    (hTrans : ∀ a b c, le a b = true → le b c = true → le a c = true)
    (x : α) :
    ∀ l : List α, SortedBy le l → SortedBy le (insertSorted le x l) := by
  intro l
  induction l with
  | nil => intro _; simp [insertSorted, SortedBy]
  | cons y ys ih =>
    intro h
    rcases (List.pairwise_cons.mp h) with ⟨hy, hys⟩
    simp only [insertSorted]
    by_cases hle : le y x = true
    · simp only [hle, if_true, SortedBy]
      refine List.pairwise_cons.mpr ⟨?_, ih hys⟩
      intro z hz
      rcases (insertSorted_mem le x ys z).mp hz with hzx | hzm
      · subst hzx; exact hle
      · exact hy z hzm
    · simp only [hle, if_false, SortedBy]
      refine List.pairwise_cons.mpr ⟨?_, h⟩
      intro z hz
      have hxy : le x y = true := by
        rcases hTot x y with h1 | h1
        · exact h1
        · exact absurd h1 (by simp [hle])
      rcases List.mem_cons.mp hz with hzy | hzm
      · subst hzy; exact hxy
      · exact hTrans x y z hxy (hy z hzm)

theorem stableSortAux_pairwise (le : α → α → Bool)
    (hTot : ∀ a b, le a b = true ∨ le b a = true)
    (hTrans : ∀ a b c, le a b = true → le b c = true → le a c = true) :
    ∀ (l acc : List α), SortedBy le acc → SortedBy le (stableSortAux le acc l) := by
  intro l
  induction l with
  | nil => intro acc h; exact h
  | cons x xs ih =>
    intro acc h
    exact ih (insertSorted le x acc) (insertSorted_pairwise le hTot hTrans x acc h)

theorem stableSortBy_pairwise (le : α → α → Bool)
    (hTot : ∀ a b, le a b = true ∨ le b a = true)
    (hTrans : ∀ a b c, le a b = true → le b c = true → le a c = true)
    (l : List α) : SortedBy le (stableSortBy le l) :=
  stableSortAux_pairwise le hTot hTrans l [] (by simp [SortedBy])

theorem insertSorted_eq_cons (le : α → α → Bool) (x : α) (l : List α)
    (h : ∀ z ∈ l, le z x = false) : insertSorted le x l = x :: l := by
  cases l with
  | nil => rfl
  | cons y ys =>
    have : le y x = false := h y (by simp)
    simp [insertSorted, this]

theorem insertSorted_filter (le : α → α → Bool)
    (hTrans : ∀ a b c, le a b = true → le b c = true → le a c = true)
    (p : α → Bool) (x : α) :
    ∀ l : List α, SortedBy le l →
      (insertSorted le x l).filter p =
        if p x then insertSorted le x (l.filter p) else l.filter p := by
  intro l
  induction l with
  | nil =>
    intro _
    by_cases hx : p x = true <;> simp [insertSorted, List.filter, hx]
  | cons y ys ih =>
    intro h
    rcases (List.pairwise_cons.mp h) with ⟨hy, hys⟩
    simp only [insertSorted]
    by_cases hle : le y x = true
    · simp only [hle, if_true]
      by_cases hpy : p y = true
      · by_cases hpx : p x = true
        · simp [List.filter_cons, hpy, hpx, ih hys, insertSorted, hle]
        · simp [List.filter_cons, hpy, hpx, ih hys]
      · by_cases hpx : p x = true
        · simp [List.filter_cons, hpy, hpx, ih hys]
        · simp [List.filter_cons, hpy, hpx, ih hys]
    · simp only [hle, if_false]
      by_cases hpx : p x = true
      · have hrest : ∀ z ∈ (y :: ys).filter p, le z x = false := by
          intro z hz
          rcases List.mem_cons.mp (List.mem_of_mem_filter hz) with hzy | hzm
          · subst hzy; simp [hle]
          · by_cases hzx : le z x = true
            · exact absurd (hTrans y z x (hy z hzm) hzx) (by simp [hle])
            · simp at hzx; exact hzx
        rw [insertSorted_eq_cons le x _ hrest]
        simp [List.filter_cons, hpx]
      · simp [List.filter_cons, hpx]

theorem stableSortAux_filter (le : α → α → Bool)
    (hTot : ∀ a b, le a b = true ∨ le b a = true)
    (hTrans : ∀ a b c, le a b = true → le b c = true → le a c = true)
    (p : α → Bool) :
    ∀ (l acc : List α), SortedBy le acc →
      (stableSortAux le acc l).filter p = stableSortAux le (acc.filter p) (l.filter p) := by
  intro l
  induction l with
  | nil => intro acc _; rfl
  | cons x xs ih =>
    intro acc h
    simp only [stableSortAux, List.filter_cons]
    rw [ih (insertSorted le x acc) (insertSorted_pairwise le hTot hTrans x acc h)]
    rw [insertSorted_filter le hTrans p x acc h]
    by_cases hpx : p x = true
    · simp [hpx, stableSortAux]
    · simp [hpx]

theorem stableSortBy_filter (le : α → α → Bool)
    (hTot : ∀ a b, le a b = true ∨ le b a = true)
    (hTrans : ∀ a b c, le a b = true → le b c = true → le a c = true)
    (p : α → Bool) (l : List α) :
    (stableSortBy le l).filter p = stableSortBy le (l.filter p) := by
  simpa [stableSortBy] using
    stableSortAux_filter le hTot hTrans p l [] (by simp [SortedBy])

theorem sorted_eq_of_perm_fibers (le : α → α → Bool) (key : α → String)
    (hTie : ∀ a b, le a b = true → le b a = true → key a = key b) :
    ∀ l₁ l₂ : List α, l₁.Perm l₂ → SortedBy le l₁ → SortedBy le l₂ →
      (∀ k, l₁.filter (fun x => key x == k) = l₂.filter (fun x => key x == k)) →
      l₁ = l₂ := by
  intro l₁
  induction l₁ with
  | nil =>
    intro l₂ hperm _ _ _
    exact (hperm.nil_eq).symm ▸ rfl
  | cons a t₁ ih =>
    intro l₂ hperm h₁ h₂ hfib
    cases l₂ with
    | nil => exact absurd hperm.symm.nil_eq (by simp)
    | cons b t₂ =>
      rcases (List.pairwise_cons.mp h₁) with ⟨ha, ht₁⟩
      rcases (List.pairwise_cons.mp h₂) with ⟨hb, ht₂⟩
      have hab : a = b := by
        by_cases heq : a = b
        · exact heq
        · have hbmem : b ∈ a :: t₁ := hperm.mem_iff.mpr (by simp)
          have hamem : a ∈ b :: t₂ := hperm.symm.mem_iff.mpr (by simp)
          have hb1 : b ∈ t₁ := by
            rcases List.mem_cons.mp hbmem with h | h
            · exact absurd h.symm heq
            · exact h
          have ha2 : a ∈ t₂ := by
            rcases List.mem_cons.mp hamem with h | h
            · exact absurd h heq
            · exact h
          have hkey : key a = key b := hTie a b (ha b hb1) (hb a ha2)
          have := hfib (key a)
          rw [List.filter_cons, List.filter_cons] at this
          simp only [beq_self_eq_true, if_true, hkey, beq_iff_eq] at this
          exact (List.cons_eq_cons.mp this).1
      subst hab
      have htperm : t₁.Perm t₂ := hperm.cons_inv
      have htfib : ∀ k, t₁.filter (fun x => key x == k) = t₂.filter (fun x => key x == k) := by
        intro k
        have := hfib k
        by_cases hk : (key a == k) = true
        · simp only [List.filter_cons, hk, if_true] at this
          exact (List.cons_eq_cons.mp this).2
        · simpa only [List.filter_cons, hk, if_false, Bool.false_eq_true] using this
      rw [ih t₂ htperm ht₁ ht₂ htfib]

/-! Facts about the two comparators of the source. -/

theorem strLt_false_trans (a b c : String)
    (h1 : strLt b a = false) (h2 : strLt c b = false) : strLt c a = false := by
  have tri1 : strLt a b = true ∨ a = b := by
    by_cases h : strLt a b = true
    · exact Or.inl h
    · exact Or.inr (strLt_eq_of_not_lt a b (by simpa using h) h1)
  have tri2 : strLt b c = true ∨ b = c := by
    by_cases h : strLt b c = true
    · exact Or.inl h
    · exact Or.inr (strLt_eq_of_not_lt b c (by simpa using h) h2)
  rcases tri1 with h3 | h3 <;> rcases tri2 with h4 | h4
  · exact strLt_asymm a c (strLt_trans a b c h3 h4)
  · rw [← h4]; exact strLt_asymm a b h3
  · rw [h3]; exact strLt_asymm b c h4
  · rw [h3, h4]; exact strLt_irrefl c

theorem edgeLE_iff (a b : DependencyEdge) : edgeLE a b = true ↔
    (strLt a.fromFile b.fromFile = true ∨
      (a.fromFile = b.fromFile ∧
        (a.line < b.line ∨ (a.line = b.line ∧ strLt b.toFile a.toFile = false)))) := by
  unfold edgeLE
  by_cases h1 : strLt a.fromFile b.fromFile = true
  · simp [h1]
  · by_cases h2 : strLt b.fromFile a.fromFile = true
    · have hne : ¬ a.fromFile = b.fromFile := by
        intro he
        rw [he] at h2
        exact absurd h2 (by simp [strLt_irrefl])
      simp [h1, h2, hne]
    · have hf : a.fromFile = b.fromFile :=
        strLt_eq_of_not_lt _ _ (by simpa using h1) (by simpa using h2)
      by_cases h3 : a.line < b.line
      · simp [h1, h2, h3, hf]
      · by_cases h4 : b.line < a.line
        · have hne : ¬ a.line = b.line := by omega
          simp [h1, h2, h3, h4, hne, hf]
        · have hle : a.line = b.line := by omega
          simp [h1, h2, h3, h4, hf, hle, Bool.not_eq_true', strLt_irrefl]

theorem edgeLE_total (a b : DependencyEdge) : edgeLE a b = true ∨ edgeLE b a = true := by
  rw [edgeLE_iff, edgeLE_iff]
  by_cases h1 : strLt a.fromFile b.fromFile = true
  · exact Or.inl (Or.inl h1)
  · by_cases h2 : strLt b.fromFile a.fromFile = true
    · exact Or.inr (Or.inl h2)
    · have hf : a.fromFile = b.fromFile :=
        strLt_eq_of_not_lt _ _ (by simpa using h1) (by simpa using h2)
      by_cases h3 : a.line < b.line
      · exact Or.inl (Or.inr ⟨hf, Or.inl h3⟩)
      · by_cases h4 : b.line < a.line
        · exact Or.inr (Or.inr ⟨hf.symm, Or.inl h4⟩)
        · have hle : a.line = b.line := by omega
          by_cases h5 : strLt b.toFile a.toFile = true
          · refine Or.inr (Or.inr ⟨hf.symm, Or.inr ⟨hle.symm, ?_⟩⟩)
            exact strLt_asymm b.toFile a.toFile h5
          · exact Or.inl (Or.inr ⟨hf, Or.inr ⟨hle, by simpa using h5⟩⟩)

theorem edgeLE_trans (a b c : DependencyEdge) :
    edgeLE a b = true → edgeLE b c = true → edgeLE a c = true := by
  rw [edgeLE_iff, edgeLE_iff, edgeLE_iff]
  intro hab hbc
  rcases hab with h1 | ⟨hf1, hr1⟩
  · rcases hbc with h2 | ⟨hf2, _⟩
    · exact Or.inl (strLt_trans _ _ _ h1 h2)
    · exact Or.inl (hf2 ▸ h1)
  · rcases hbc with h2 | ⟨hf2, hr2⟩
    · exact Or.inl (hf1 ▸ h2)
    · refine Or.inr ⟨hf1.trans hf2, ?_⟩
      rcases hr1 with hl1 | ⟨hl1, ht1⟩
      · rcases hr2 with hl2 | ⟨hl2, _⟩
        · exact Or.inl (by omega)
        · exact Or.inl (by omega)
      · rcases hr2 with hl2 | ⟨hl2, ht2⟩
        · exact Or.inl (by omega)
        · exact Or.inr ⟨by omega, strLt_false_trans _ _ _ ht1 ht2⟩

theorem edgeLE_tie_fromFile (a b : DependencyEdge) :
    edgeLE a b = true → edgeLE b a = true → a.fromFile = b.fromFile := by
  rw [edgeLE_iff, edgeLE_iff]
  intro hab hba
  rcases hab with h1 | ⟨hf1, _⟩
  · rcases hba with h2 | ⟨hf2, _⟩
    · exact absurd h1 (by simp [strLt_asymm _ _ h2])
    · exact absurd h1 (by rw [hf2]; simp [strLt_irrefl])
  · exact hf1

theorem locLE_iff (a b : Violation) : locLE a b = true ↔
    (strLt a.edge.fromFile b.edge.fromFile = true ∨
      (a.edge.fromFile = b.edge.fromFile ∧ a.edge.line ≤ b.edge.line)) := by
  unfold locLE
  by_cases h1 : strLt a.edge.fromFile b.edge.fromFile = true
  · simp [h1]
  · by_cases h2 : strLt b.edge.fromFile a.edge.fromFile = true
    · have hne : ¬ a.edge.fromFile = b.edge.fromFile := by
        intro he
        rw [he] at h2
        exact absurd h2 (by simp [strLt_irrefl])
      simp [h1, h2, hne]
    · have hf : a.edge.fromFile = b.edge.fromFile :=
        strLt_eq_of_not_lt _ _ (by simpa using h1) (by simpa using h2)
      have hbb : strLt b.edge.fromFile b.edge.fromFile = false := strLt_irrefl _
      simp [h1, h2, hf, hbb]

theorem locLE_total (a b : Violation) : locLE a b = true ∨ locLE b a = true := by
  rw [locLE_iff, locLE_iff]
  by_cases h1 : strLt a.edge.fromFile b.edge.fromFile = true
  · exact Or.inl (Or.inl h1)
  · by_cases h2 : strLt b.edge.fromFile a.edge.fromFile = true
    · exact Or.inr (Or.inl h2)
    · have hf : a.edge.fromFile = b.edge.fromFile :=
        strLt_eq_of_not_lt _ _ (by simpa using h1) (by simpa using h2)
      by_cases h3 : a.edge.line ≤ b.edge.line
      · exact Or.inl (Or.inr ⟨hf, h3⟩)
      · exact Or.inr (Or.inr ⟨hf.symm, by omega⟩)

theorem locLE_trans (a b c : Violation) :
    locLE a b = true → locLE b c = true → locLE a c = true := by
  rw [locLE_iff, locLE_iff, locLE_iff]
  intro hab hbc
  rcases hab with h1 | ⟨hf1, hl1⟩
  · rcases hbc with h2 | ⟨hf2, _⟩
    · exact Or.inl (strLt_trans _ _ _ h1 h2)
    · exact Or.inl (hf2 ▸ h1)
  · rcases hbc with h2 | ⟨hf2, hl2⟩
    · exact Or.inl (hf1 ▸ h2)
    · exact Or.inr ⟨hf1.trans hf2, le_trans hl1 hl2⟩

theorem locLES_total (a b : SuppressedViolation) : locLES a b = true ∨ locLES b a = true :=
  locLE_total a.toViolation b.toViolation

theorem locLES_trans (a b c : SuppressedViolation) :
    locLES a b = true → locLES b c = true → locLES a c = true :=
  locLE_trans a.toViolation b.toViolation c.toViolation

/-! Suppression-partition facts. -/

theorem partitionSuppressions_eq (supps : List Suppression) :
    ∀ vs : List Violation,
      partitionSuppressions supps vs =
        (vs.filter (fun v => (findSuppression supps v).isNone),
         vs.filterMap (fun v => (findSuppression supps v).map (fun s => ⟨v, s.reason⟩))) := by
  intro vs
  induction vs with
  | nil => rfl
  | cons v rest ih =>
    simp only [partitionSuppressions, ih, List.filter_cons, List.filterMap_cons]
    cases h : findSuppression supps v <;> simp [h]

theorem partitionSuppressions_length (supps : List Suppression) :
    ∀ vs : List Violation,
      (partitionSuppressions supps vs).1.length + (partitionSuppressions supps vs).2.length
        = vs.length := by
  intro vs
  induction vs with
  | nil => rfl
  | cons v rest ih =>
    simp only [partitionSuppressions]
    cases h : findSuppression supps v <;> simp [h] <;> omega

/-! Error propagation of extraction. -/

theorem tryCandidates_error (fsys : String → FsEntry) (repoRoot : String) :
    ∀ cs e, tryCandidates fsys repoRoot cs = .error e → e = .otherErr := by
  intro cs
  induction cs with
  | nil => intro e h; simp [tryCandidates] at h
  | cons c rest ih =>
    intro e h
    simp only [tryCandidates] at h
    cases hc : fsys c <;> rw [hc] at h
    · exact ih e h
    · simp at h
    · exact ih e h
    · simp at h; exact h.symm

theorem resolveImportToFile_error (fsys : String → FsEntry)
    (repoRoot fromFile specifier : String) (e : JsErr) :
    resolveImportToFile fsys repoRoot fromFile specifier = .error e → e = .otherErr := by
  unfold resolveImportToFile
  by_cases h : (!jsStartsWith specifier "." && !jsStartsWith specifier "/") = true
  · simp [h]
  · simp only [h, if_false, Bool.false_eq_true]
    exact tryCandidates_error fsys repoRoot _ e

theorem edgesForImports_error (fsys : String → FsEntry) (repoRoot file : String) :
    ∀ imps e, edgesForImports fsys repoRoot file imps = .error e → e = .otherErr := by
  intro imps
  induction imps with
  | nil => intro e h; simp [edgesForImports] at h
  | cons imp rest ih =>
    intro e h
    unfold edgesForImports at h
    cases hr : resolveImportToFile fsys repoRoot file imp.specifier with
    | error e2 =>
      rw [hr] at h
      simp only [Except.error.injEq] at h
      subst h
      exact resolveImportToFile_error fsys repoRoot file imp.specifier _ hr
    | ok r =>
      rw [hr] at h
      cases ht : edgesForImports fsys repoRoot file rest with
      | error e3 =>
        rw [ht] at h
        simp only [Except.error.injEq] at h
        subst h
        exact ih _ ht
      | ok tail =>
        rw [ht] at h
        cases r <;> simp at h

theorem parseImportsFromFile_error (fsys : String → FsEntry) (readF : String → ExtractOutcome)
    (repoRoot file : String) (e : JsErr) :
    parseImportsFromFile fsys readF repoRoot file = .error e → e = .otherErr := by
  unfold parseImportsFromFile
  cases readF (resolvePath repoRoot file) with
  | missing => intro h; simp at h
  | unreadable => intro h; simp at h; exact h.symm
  | content imports => exact edgesForImports_error fsys repoRoot file imports e

theorem edgesForImports_fromFile (fsys : String → FsEntry) (repoRoot file : String) :
    ∀ imps l, edgesForImports fsys repoRoot file imps = .ok l →
      ∀ x ∈ l, x.fromFile = file := by
  intro imps
  induction imps with
  | nil =>
    intro l h x hx
    simp only [edgesForImports] at h
    cases h
    simp at hx
  | cons imp rest ih =>
    intro l h x hx
    unfold edgesForImports at h
    cases hr : resolveImportToFile fsys repoRoot file imp.specifier with
    | error e2 => rw [hr] at h; simp at h
    | ok r =>
      rw [hr] at h
      cases ht : edgesForImports fsys repoRoot file rest with
      | error e3 => rw [ht] at h; simp at h
      | ok tail =>
        rw [ht] at h
        cases r with
        | none =>
          simp only [Except.ok.injEq] at h
          subst h
          exact ih _ ht x hx
        | some toFile =>
          simp only [Except.ok.injEq] at h
          subst h
          rcases List.mem_cons.mp hx with hx1 | hx2
          · subst hx1; rfl
          · exact ih _ ht x hx2

theorem okEdges_fromFile (fsys : String → FsEntry) (readF : String → ExtractOutcome)
    (repoRoot f : String) :
    ∀ x ∈ okEdges fsys readF repoRoot f, x.fromFile = f := by
  intro x hx
  unfold okEdges at hx
  cases hp : parseImportsFromFile fsys readF repoRoot f <;> rw [hp] at hx
  · simp at hx
  · unfold parseImportsFromFile at hp
    cases hr : readF (resolvePath repoRoot f) <;> rw [hr] at hp
    · cases hp; simp at hx
    · simp at hp
    · exact edgesForImports_fromFile fsys repoRoot f _ _ hp x hx

theorem collect_error_of_mem (fsys : String → FsEntry) (readF : String → ExtractOutcome)
    (repoRoot : String) :
    ∀ files f e, f ∈ files → parseImportsFromFile fsys readF repoRoot f = .error e →
      collectEdges fsys readF repoRoot files = .error .otherErr := by
  intro files
  induction files with
  | nil => intro f e hf _; simp at hf
  | cons g rest ih =>
    intro f e hf hp
    unfold collectEdges
    cases hg : parseImportsFromFile fsys readF repoRoot g with
    | error e2 =>
      have he2 := parseImportsFromFile_error fsys readF repoRoot g e2 hg
      subst he2
      simp [hg]
    | ok es =>
      have hfr : f ∈ rest := by
        rcases List.mem_cons.mp hf with h | h
        · subst h
          rw [hp] at hg
          exact absurd hg (by simp)
        · exact h
      have hrec := ih f e hfr hp
      simp [hg, hrec]

theorem collect_ok_of_forall (fsys : String → FsEntry) (readF : String → ExtractOutcome)
    (repoRoot : String) :
    ∀ files, (∀ f ∈ files, ∀ e, parseImportsFromFile fsys readF repoRoot f ≠ .error e) →
      collectEdges fsys readF repoRoot files
        = .ok (flatEdges (okEdges fsys readF repoRoot) files) := by
  intro files
  induction files with
  | nil => intro _; rfl
  | cons g rest ih =>
    intro hall
    unfold collectEdges
    cases hg : parseImportsFromFile fsys readF repoRoot g with
    | error e2 => exact absurd hg (hall g (by simp) e2)
    | ok es =>
      have hrest := ih (fun f hf e => hall f (by simp [hf]) e)
      simp [hg, hrest, flatEdges, okEdges]

theorem flatEdges_perm (g : String → List DependencyEdge)
    {files₁ files₂ : List String} (hp : files₁.Perm files₂) :
    (flatEdges g files₁).Perm (flatEdges g files₂) := by
  induction hp with
  | nil => exact List.Perm.refl _
  | cons x h ih => exact List.Perm.append_left (g x) ih
  | swap x y l =>
    simp only [flatEdges, ← List.append_assoc]
    exact List.Perm.append_right _ List.perm_append_comm
  | trans h1 h2 ih1 ih2 => exact ih1.trans ih2

theorem filter_key_of_all (f k : String) :
    ∀ xs : List DependencyEdge, (∀ x ∈ xs, x.fromFile = f) →
      xs.filter (fun e => e.fromFile == k) = if f == k then xs else [] := by
  intro xs
  induction xs with
  | nil => intro _; cases hfk : (f == k) <;> simp [hfk]
  | cons x rest ih =>
    intro h
    have hx : x.fromFile = f := h x (by simp)
    have hr := ih (fun y hy => h y (by simp [hy]))
    rw [List.filter_cons, hx, hr]
    cases hfk : (f == k) <;> simp [hfk]

theorem flatEdges_filter (g : String → List DependencyEdge) (p : DependencyEdge → Bool) :
    ∀ files, (flatEdges g files).filter p = flatEdges (fun f => (g f).filter p) files := by
  intro files
  induction files with
  | nil => rfl
  | cons f fs ih => simp [flatEdges, List.filter_append, ih]

theorem flatEdges_concentrated_perm (C : List DependencyEdge) (k : String)
    {files₁ files₂ : List String} (hp : files₁.Perm files₂) :
    flatEdges (fun f => if f == k then C else []) files₁
      = flatEdges (fun f => if f == k then C else []) files₂ := by
  induction hp with
  | nil => rfl
  | cons x h ih =>
    simp only [flatEdges]
    rw [ih]
  | swap x y l =>
    simp only [flatEdges]
    cases hx : (x == k) <;> cases hy : (y == k) <;> simp [hx, hy]
  | trans h1 h2 ih1 ih2 => exact ih1.trans ih2

theorem flatEdges_filter_key_perm (fsys : String → FsEntry) (readF : String → ExtractOutcome)
    (repoRoot k : String) {files₁ files₂ : List String} (hp : files₁.Perm files₂) :
    (flatEdges (okEdges fsys readF repoRoot) files₁).filter (fun e => e.fromFile == k)
      = (flatEdges (okEdges fsys readF repoRoot) files₂).filter (fun e => e.fromFile == k) := by
  rw [flatEdges_filter, flatEdges_filter]
  have hfun : (fun f => (okEdges fsys readF repoRoot f).filter (fun e => e.fromFile == k))
      = (fun f => if f == k then okEdges fsys readF repoRoot k else []) := by
    funext f
    rw [filter_key_of_all f k _ (okEdges_fromFile fsys readF repoRoot f)]
    by_cases hfk : (f == k) = true
    · rw [if_pos hfk, if_pos hfk, beq_iff_eq.mp hfk]
    · rw [if_neg hfk, if_neg hfk]
  rw [hfun]
  exact flatEdges_concentrated_perm _ k hp

theorem sortFlat_eq (fsys : String → FsEntry) (readF : String → ExtractOutcome)
    (repoRoot : String) {files₁ files₂ : List String} (hp : files₁.Perm files₂) :
    stableSortBy edgeLE (flatEdges (okEdges fsys readF repoRoot) files₁)
      = stableSortBy edgeLE (flatEdges (okEdges fsys readF repoRoot) files₂) := by
  apply sorted_eq_of_perm_fibers edgeLE (fun e => e.fromFile) edgeLE_tie_fromFile
  · exact (stableSortBy_perm _ _).trans
      ((flatEdges_perm _ hp).trans (stableSortBy_perm _ _).symm)
  · exact stableSortBy_pairwise edgeLE edgeLE_total edgeLE_trans _
  · exact stableSortBy_pairwise edgeLE edgeLE_total edgeLE_trans _
  · intro k
    rw [stableSortBy_filter edgeLE edgeLE_total edgeLE_trans,
        stableSortBy_filter edgeLE edgeLE_total edgeLE_trans]
    rw [flatEdges_filter_key_perm fsys readF repoRoot k hp]

theorem buildDependencyEdges_perm_eq (fsys : String → FsEntry)
    (readF : String → ExtractOutcome) (repoRoot : String)
    {files₁ files₂ : List String} (hp : files₁.Perm files₂) :
    buildDependencyEdges fsys readF repoRoot files₁
      = buildDependencyEdges fsys readF repoRoot files₂ := by
  by_cases hbad : ∃ f ∈ files₁, ∃ e, parseImportsFromFile fsys readF repoRoot f = .error e
  · obtain ⟨f, hf, e, hpe⟩ := hbad
    have h1 := collect_error_of_mem fsys readF repoRoot files₁ f e hf hpe
    have h2 := collect_error_of_mem fsys readF repoRoot files₂ f e (hp.mem_iff.mp hf) hpe
    unfold buildDependencyEdges
    rw [h1, h2]
  · push_neg at hbad
    have h1 := collect_ok_of_forall fsys readF repoRoot files₁ hbad
    have h2 := collect_ok_of_forall fsys readF repoRoot files₂
      (fun f hf e => hbad f (hp.mem_iff.mpr hf) e)
    unfold buildDependencyEdges
    rw [h1, h2]
    simp only [Except.map]
    exact congrArg Except.ok (sortFlat_eq fsys readF repoRoot hp)

/-! Layer-cache transparency. -/

theorem computeLayer_fst (layers : List (String × List String))
    (cache : List (String × String)) (file : String) :
    (computeLayer layers cache file).1 = matchLayer file layers := by
  unfold computeLayer
  cases hm : matchLayer file layers with
  | none => rfl
  | some l => by_cases hl : (l == "") = true <;> simp [hl]

theorem computeLayer_snd (layers : List (String × List String))
    (cache : List (String × String)) (file : String)
    (hc : CacheOK layers cache) : CacheOK layers (computeLayer layers cache file).2 := by
  unfold computeLayer
  cases hm : matchLayer file layers with
  | none => exact hc
  | some l =>
    by_cases hl : (l == "") = true
    · simpa [hl] using hc
    · simp only [hl, if_false, Bool.false_eq_true]
      intro p hp
      rcases List.mem_cons.mp hp with h | h
      · rw [h]; exact hm
      · exact hc p h

theorem getLayer_fst (layers : List (String × List String))
    (cache : List (String × String)) (file : String)
    (hc : CacheOK layers cache) :
    (getLayer layers cache file).1 = matchLayer file layers := by
  unfold getLayer
  cases hf : cache.find? (fun p => p.1 == file) with
  | none => exact computeLayer_fst layers cache file
  | some p =>
    have hp : p ∈ cache := List.mem_of_find?_eq_some hf
    have hkey := List.find?_some hf
    have hml : matchLayer p.1 layers = some p.2 := hc p hp
    rw [beq_iff_eq.mp hkey] at hml
    by_cases h2 : (p.2 == "") = true
    · simpa [h2] using computeLayer_fst layers cache file
    · simp [h2, hml]

theorem getLayer_snd (layers : List (String × List String))
    (cache : List (String × String)) (file : String)
    (hc : CacheOK layers cache) : CacheOK layers (getLayer layers cache file).2 := by
  unfold getLayer
  cases hf : cache.find? (fun p => p.1 == file) with
  | none => exact computeLayer_snd layers cache file hc
  | some p =>
    by_cases h2 : (p.2 == "") = true
    · simpa [h2] using computeLayer_snd layers cache file hc
    · simpa [h2] using hc

theorem cacheAfter_ok (layers : List (String × List String)) :
    ∀ prior, CacheOK layers (cacheAfter layers prior) := by
  have haux : ∀ (prior : List String) (cache : List (String × String)),
      CacheOK layers cache →
      CacheOK layers (prior.foldl (fun c f => (getLayer layers c f).2) cache) := by
    intro prior
    induction prior with
    | nil => intro cache hc; exact hc
    | cons f fs ih =>
      intro cache hc
      exact ih _ (getLayer_snd layers cache f hc)
  intro prior
  exact haux prior [] (by intro p hp; simp at hp)

/-! Rule-evaluation structure. -/

theorem evalEdge_fst (config : TrussConfig) (vs : List Violation)
    (cache : List (String × String)) (e : DependencyEdge)
    (hc : CacheOK config.layers cache) :
    (evalEdge config (vs, cache) e).1 = vs ++ edgeContrib config e := by
  have hc1 : CacheOK config.layers (getLayer config.layers cache e.fromFile).2 :=
    getLayer_snd config.layers cache e.fromFile hc
  have hfr := getLayer_fst config.layers cache e.fromFile hc
  have htr := getLayer_fst config.layers
    (getLayer config.layers cache e.fromFile).2 e.toFile hc1
  unfold evalEdge edgeContrib
  simp only [hfr, htr]
  by_cases h : (jsFalsy (matchLayer e.fromFile config.layers)
      || jsFalsy (matchLayer e.toFile config.layers)) = true
  · simp [h]
  · simp only [h, if_false, Bool.false_eq_true]
    cases hm1 : matchLayer e.fromFile config.layers with
    | none => simp [hm1, jsFalsy] at h
    | some f =>
      cases hm2 : matchLayer e.toFile config.layers with
      | none => simp [hm2, jsFalsy] at h
      | some t => simp

theorem evalEdge_snd (config : TrussConfig) (vs : List Violation)
    (cache : List (String × String)) (e : DependencyEdge)
    (hc : CacheOK config.layers cache) :
    CacheOK config.layers (evalEdge config (vs, cache) e).2 := by
  have hc1 : CacheOK config.layers (getLayer config.layers cache e.fromFile).2 :=
    getLayer_snd config.layers cache e.fromFile hc
  have hc2 : CacheOK config.layers
      (getLayer config.layers (getLayer config.layers cache e.fromFile).2 e.toFile).2 :=
    getLayer_snd config.layers _ e.toFile hc1
  unfold evalEdge
  by_cases h : (jsFalsy (getLayer config.layers cache e.fromFile).1
      || jsFalsy (getLayer config.layers
            (getLayer config.layers cache e.fromFile).2 e.toFile).1) = true
  · simpa [h] using hc2
  · simp only [h, if_false, Bool.false_eq_true]
    cases hm1 : (getLayer config.layers cache e.fromFile).1 with
    | none => simpa using hc2
    | some f =>
      cases hm2 : (getLayer config.layers
          (getLayer config.layers cache e.fromFile).2 e.toFile).1 with
      | none => simpa using hc2
      | some t => simpa using hc2

theorem evalFold_fst (config : TrussConfig) :
    ∀ (edges : List DependencyEdge) (vs : List Violation)
      (cache : List (String × String)), CacheOK config.layers cache →
      (List.foldl (evalEdge config) (vs, cache) edges).1 = vs ++ contribAll config edges := by
  intro edges
  induction edges with
  | nil => intro vs cache _; simp [contribAll]
  | cons e es ih =>
    intro vs cache hc
    have hpair : evalEdge config (vs, cache) e
        = (vs ++ edgeContrib config e, (evalEdge config (vs, cache) e).2) :=
      Prod.ext (evalEdge_fst config vs cache e hc) rfl
    simp only [List.foldl, contribAll]
    rw [hpair]
    rw [ih (vs ++ edgeContrib config e) _ (hpair ▸ evalEdge_snd config vs cache e hc)]
    rw [List.append_assoc]

theorem evaluateRules_eq_contribAll (config : TrussConfig) (edges : List DependencyEdge) :
    (evaluateRules config edges).1 = contribAll config edges := by
  unfold evaluateRules
  have := evalFold_fst config edges [] [] (by intro p hp; simp at hp)
  simpa using this

theorem contribAll_append (config : TrussConfig) :
    ∀ l₁ l₂, contribAll config (l₁ ++ l₂) = contribAll config l₁ ++ contribAll config l₂ := by
  intro l₁ l₂
  induction l₁ with
  | nil => simp [contribAll]
  | cons e es ih => simp [contribAll, ih]

theorem filterMap_guard {α : Type u1} {β : Type u2} (p : α → Bool) (g : α → β) :
    ∀ l : List α, l.filterMap (fun x => if p x = true then some (g x) else none)
      = (l.filter p).map g := by
  intro l
  induction l with
  | nil => rfl
  | cons x xs ih =>
    rw [List.filterMap_cons, List.filter_cons]
    cases h : p x with
    | false => simpa [h] using ih
    | true => simpa [h] using ih

theorem ruleViolations_eq_map (fromLayer toLayer : String) (e : DependencyEdge)
    (rules : List Rule) :
    ruleViolations rules fromLayer toLayer e
      = (matchingRules rules fromLayer toLayer).map (fun r => violationFor r fromLayer toLayer e) := by
  unfold ruleViolations matchingRules
  have hbody : (fun rule => if (rule.«from» != fromLayer) = true then none
        else if (!rule.disallow.contains toLayer) = true then none
        else some (violationFor rule fromLayer toLayer e))
      = (fun rule => if (rule.«from» == fromLayer && rule.disallow.contains toLayer) = true
          then some (violationFor rule fromLayer toLayer e) else none) := by
    funext rule
    cases h1 : (rule.«from» == fromLayer) <;> cases h2 : (rule.disallow.contains toLayer) <;>
      simp [bne, h1, h2]
  rw [hbody]
  exact filterMap_guard _ _ rules

theorem matchLayer_eq_find (file : String) :
    ∀ layers, matchLayer file layers
      = (layers.find? (fun pr => matchLayerPats file pr.2)).map (fun pr => pr.1) := by
  intro layers
  induction layers with
  | nil => rfl
  | cons pr rest ih =>
    obtain ⟨n, pats⟩ := pr
    unfold matchLayer
    by_cases h : matchLayerPats file pats = true
    · rw [if_pos h, List.find?_cons_of_pos _ (by simpa using h)]
      rfl
    · rw [if_neg h, List.find?_cons_of_neg _ (by simpa using h), ih]

/-! Resolver candidate-order characterization. -/

theorem tryCandidates_eq_find (fsys : String → FsEntry) (repoRoot : String) :
    ∀ cs, tryCandidates fsys repoRoot cs
      = match cs.find? (fun c => fsys c == FsEntry.file || fsys c == FsEntry.statThrows) with
        | none => .ok none
        | some c =>
          if fsys c == FsEntry.statThrows then .error .otherErr
          else .ok (toRepoRelativePosix repoRoot c) := by
  intro cs
  induction cs with
  | nil => rfl
  | cons c rest ih =>
    unfold tryCandidates
    cases hc : fsys c with
    | absent =>
      rw [List.find?_cons_of_neg _ (by simp [hc])]
      exact ih
    | file =>
      rw [List.find?_cons_of_pos _ (by simp [hc])]
      simp [hc]
    | notFile =>
      rw [List.find?_cons_of_neg _ (by simp [hc])]
      exact ih
    | statThrows =>
      rw [List.find?_cons_of_pos _ (by simp [hc])]
      simp [hc]

/-! Frame lemmas for the node store. -/

theorem updateNode_length : ∀ (l : List GraphNode) (i : Nat) (f : GraphNode → GraphNode),
    (updateNode l i f).length = l.length := by
  intro l
  induction l with
  | nil => intro i f; rfl
  | cons n ns ih =>
    intro i f
    cases i with
    | zero => rfl
    | succ i2 => simp [updateNode, ih]

theorem updateNode_getElem_ne :
    ∀ (l : List GraphNode) (i : Nat) (f : GraphNode → GraphNode) (k : Nat),
      k ≠ i → (updateNode l i f)[k]? = l[k]? := by
  intro l
  induction l with
  | nil => intro i f k _; rfl
  | cons n ns ih =>
    intro i f k hk
    cases i with
    | zero =>
      cases k with
      | zero => exact absurd rfl hk
      | succ k2 => simp [updateNode]
    | succ i2 =>
      cases k with
      | zero => simp [updateNode]
      | succ k2 =>
        simp only [updateNode, List.getElem?_cons_succ]
        exact ih i2 f k2 (by omega)

theorem updateNode_getElem_eq :
    ∀ (l : List GraphNode) (i : Nat) (f : GraphNode → GraphNode),
      (updateNode l i f)[i]? = (l[i]?).map f := by
  intro l
  induction l with
  | nil => intro i f; cases i <;> rfl
  | cons n ns ih =>
    intro i f
    cases i with
    | zero => simp [updateNode]
    | succ i2 =>
      simp only [updateNode, List.getElem?_cons_succ]
      exact ih i2 f

theorem successResult_length_congr (config : TrussConfig)
    (files₁ files₂ : List String) (edges : List DependencyEdge)
    (h : files₁.length = files₂.length) :
    successResult config files₁ edges = successResult config files₂ edges := by
  unfold successResult
  rw [h]

/-! The claims. -/

/-- C2: for every local import specifier the resolver tries candidates in
exactly this order — the raw resolved path, then the raw path with each
extension of the fixed list appended in list order, then the raw path as a
directory with `index` plus each extension in the same order — and returns
the repo-relative POSIX path of the first candidate that exists and is a
regular file (`none` when no candidate exists, and the `none` of
`toRepoRelativePosix` when that first regular-file candidate lies outside
the repo root); non-local specifiers resolve to nothing. -/
theorem c2_resolver_candidate_order (fsys : String → FsEntry)
    (repoRoot fromFile specifier : String) :
    (resolveImportToFile fsys repoRoot fromFile specifier
      = if (jsStartsWith specifier "." || jsStartsWith specifier "/") = true then
          match (candidatePaths (unresolvedPath repoRoot fromFile specifier)).find?
              (fun c => fsys c == FsEntry.file || fsys c == FsEntry.statThrows) with
          | none => .ok none
          | some c =>
            if fsys c == FsEntry.statThrows then .error .otherErr
            else .ok (toRepoRelativePosix repoRoot c)
        else .ok none)
    ∧ (∀ u : String, candidatePaths u
        = [u,
           u ++ ".ts", u ++ ".tsx", u ++ ".js", u ++ ".jsx",
           u ++ ".mts", u ++ ".cts", u ++ ".mjs", u ++ ".cjs",
           joinPath u "index.ts", joinPath u "index.tsx",
           joinPath u "index.js", joinPath u "index.jsx",
           joinPath u "index.mts", joinPath u "index.cts",
           joinPath u "index.mjs", joinPath u "index.cjs"]) := by
  constructor
  · unfold resolveImportToFile
    by_cases h : (jsStartsWith specifier "." || jsStartsWith specifier "/") = true
    · have hg : (!jsStartsWith specifier "." && !jsStartsWith specifier "/") = false := by
        rcases Bool.or_eq_true_iff.mp h with h1 | h1 <;> simp [h1]
      rw [hg]
      simp only [Bool.false_eq_true, if_false, h, if_true]
      exact tryCandidates_eq_find fsys repoRoot _
    · have hfalse : (jsStartsWith specifier "." || jsStartsWith specifier "/") = false := by
        cases hb : (jsStartsWith specifier "." || jsStartsWith specifier "/")
        · rfl
        · exact absurd hb h
      obtain ⟨h1, h2⟩ := Bool.or_eq_false_iff.mp hfalse
      simp [h1, h2, h]
  · intro u
    rfl

/-- C9: an import specifier that starts with neither `.` nor `/` is never
resolved, and the extractor's edge loop produces exactly the edges of the
local specifiers — filtering the non-local import sites away changes
nothing. -/
theorem c9_bare_specifiers_no_edge :
    (∀ (fsys : String → FsEntry) (repoRoot fromFile specifier : String),
      jsStartsWith specifier "." = false → jsStartsWith specifier "/" = false →
      resolveImportToFile fsys repoRoot fromFile specifier = .ok none)
    ∧ (∀ (fsys : String → FsEntry) (repoRoot file : String) (imports : List RawImport),
      edgesForImports fsys repoRoot file imports
        = edgesForImports fsys repoRoot file
            (imports.filter
              (fun i => jsStartsWith i.specifier "." || jsStartsWith i.specifier "/"))) := by
  have hbare : ∀ (fsys : String → FsEntry) (repoRoot fromFile specifier : String),
      jsStartsWith specifier "." = false → jsStartsWith specifier "/" = false →
      resolveImportToFile fsys repoRoot fromFile specifier = .ok none := by
    intro fsys repoRoot fromFile specifier h1 h2
    unfold resolveImportToFile
    simp [h1, h2]
  refine ⟨hbare, ?_⟩
  intro fsys repoRoot file imports
  induction imports with
  | nil => rfl
  | cons imp rest ih =>
    rw [List.filter_cons]
    cases h : (jsStartsWith imp.specifier "." || jsStartsWith imp.specifier "/") with
    | true =>
      simp only [if_true]
      unfold edgesForImports
      rw [ih]
    | false =>
      simp only [Bool.false_eq_true, if_false]
      obtain ⟨h1, h2⟩ := Bool.or_eq_false_iff.mp h
      have hres := hbare fsys repoRoot file imp.specifier h1 h2
      have hstep : edgesForImports fsys repoRoot file (imp :: rest)
          = edgesForImports fsys repoRoot file rest := by
        show (match resolveImportToFile fsys repoRoot file imp.specifier with
              | Except.error e => Except.error e
              | Except.ok r =>
                match edgesForImports fsys repoRoot file rest with
                | Except.error e => Except.error e
                | Except.ok tail =>
                  match r with
                  | none => Except.ok tail
                  | some toFile =>
                    Except.ok ({ fromFile := file, toFile := toFile, importText := imp.text,
                                 line := imp.line, importKind := ImportKind.internal } :: tail))
            = edgesForImports fsys repoRoot file rest
        rw [hres]
        cases ht : edgesForImports fsys repoRoot file rest <;> rfl
      rw [hstep]
      exact ih

/-- C9 witness: the bare specifier `lodash` produces no resolution. -/
theorem c9_bare_specifiers_no_edge_witness :
    jsStartsWith "lodash" "." = false ∧ jsStartsWith "lodash" "/" = false ∧
      resolveImportToFile (fun _ => FsEntry.absent) "/repo" "a.ts" "lodash" = .ok none :=
  ⟨by decide, by decide,
    c9_bare_specifiers_no_edge.1 (fun _ => FsEntry.absent) "/repo" "a.ts" "lodash"
      (by decide) (by decide)⟩

/-- C8: the memoized lookup is transparent — after any sequence of prior
lookups, `getLayer` on the resulting cache returns exactly what an uncached
`matchLayer` call returns. -/
theorem c8_layer_cache_transparent (layers : List (String × List String))
    (prior : List String) (file : String) :
    (getLayer layers (cacheAfter layers prior) file).1 = matchLayer file layers :=
  getLayer_fst layers _ file (cacheAfter_ok layers prior)

/-- C7: layer matching returns the first declared layer having a pattern
whose wildcard-stripped form literally prefixes the file path, and an edge
one of whose endpoints matches no layer contributes no violations at
all. -/
theorem c7_layer_first_match_and_null_excluded :
    (∀ (file : String) (layers : List (String × List String)),
      matchLayer file layers
        = (layers.find?
            (fun pr => pr.2.any (fun p => jsStartsWith file (normalizePattern p)))).map
            (fun pr => pr.1))
    ∧ (∀ (config : TrussConfig) (es₁ es₂ : List DependencyEdge) (e : DependencyEdge),
      matchLayer e.fromFile config.layers = none ∨ matchLayer e.toFile config.layers = none →
      (evaluateRules config (es₁ ++ e :: es₂)).1 = (evaluateRules config (es₁ ++ es₂)).1) := by
  constructor
  · intro file layers
    exact matchLayer_eq_find file layers
  · intro config es₁ es₂ e he
    rw [evaluateRules_eq_contribAll, evaluateRules_eq_contribAll,
        contribAll_append, contribAll_append]
    have hz : edgeContrib config e = [] := by
      unfold edgeContrib
      rcases he with h | h <;> simp [h, jsFalsy]
    have hsplit : contribAll config (e :: es₂) = edgeContrib config e ++ contribAll config es₂ := rfl
    rw [hsplit, hz]
    simp

/-- C7 witness: `x` matches no layer of the `ui`-only configuration, and
dropping the edge `x → y` from the edge list leaves the violations
unchanged. -/
theorem c7_layer_first_match_and_null_excluded_witness :
    matchLayer "x" cfgUi.layers = none
    ∧ (evaluateRules cfgUi ([] ++ edgeXY :: [])).1 = (evaluateRules cfgUi ([] ++ [])).1 :=
  ⟨by decide,
    c7_layer_first_match_and_null_excluded.2 cfgUi [] [] edgeXY (Or.inl (by decide))⟩

/-- C6 (amended): for every edge whose two endpoints both map to a layer
with a nonempty name, rule evaluation emits exactly one violation per rule
(in declared order) whose `from` equals the source layer and whose
`disallow` contains the target layer, with the rule's message as reason
when present and the default sentence otherwise; an endpoint mapping to
the empty-named layer is treated like an unmatched file and the edge is
skipped. -/
theorem c6_one_violation_per_matching_rule (config : TrussConfig)
    (edges : List DependencyEdge) :
    (evaluateRules config edges).1
      = edges.foldr (fun e acc =>
          (match matchLayer e.fromFile config.layers, matchLayer e.toFile config.layers with
           | some f, some t =>
             if (f == "" || t == "") = true then []
             else (matchingRules config.rules f t).map (fun r => violationFor r f t e)
           | _, _ => []) ++ acc) [] := by
  rw [evaluateRules_eq_contribAll]
  induction edges with
  | nil => rfl
  | cons e es ih =>
    rw [List.foldr_cons]
    have hsplit : contribAll config (e :: es) = edgeContrib config e ++ contribAll config es := rfl
    rw [hsplit, ih]
    congr 1
    unfold edgeContrib
    cases hm1 : matchLayer e.fromFile config.layers with
    | none => simp [jsFalsy]
    | some f =>
      cases hm2 : matchLayer e.toFile config.layers with
      | none => simp [jsFalsy]
      | some t =>
        simp only [jsFalsy]
        by_cases hf : (f == "") = true
        · simp [hf]
        · by_cases ht : (t == "") = true
          · simp [hf, ht]
          · simp [hf, ht, ruleViolations_eq_map]

/-- C6 counterexample: with a layer named by the empty string, both
endpoints of the edge map to a layer and exactly one declared rule
matches, yet evaluation emits no violation — the claim as stated fails
because `if (!fromLayer || !toLayer)` treats the empty-string layer name
as falsy. -/
theorem c6_counterexample_empty_layer_name :
    matchLayer edgeAB.fromFile cfgEmptyLayer.layers = some ""
    ∧ matchLayer edgeAB.toFile cfgEmptyLayer.layers = some ""
    ∧ ((matchingRules cfgEmptyLayer.rules "" "").map
        (fun r => violationFor r "" "" edgeAB)).length = 1
    ∧ (evaluateRules cfgEmptyLayer [edgeAB]).1 = [] := by
  refine ⟨by decide, by decide, by decide, by decide⟩

/-- C4: the suppression filter moves a violation to the suppressed bucket
exactly when some configured entry matches `(fromFile, ruleName)`,
annotating it with the reason of the first such entry in declared order;
the two buckets are a disjoint partition of the input (so the lengths add
up), and each bucket is sorted by `(fromFile, line)` ascending. -/
theorem c4_suppression_partition (config : TrussConfig) (vs : List Violation) :
    ((applySuppressions config vs).1).Perm
        (vs.filter (fun v => (findSuppression (config.suppressions.getD []) v).isNone))
    ∧ ((applySuppressions config vs).2).Perm
        (vs.filterMap (fun v => (findSuppression (config.suppressions.getD []) v).map
          (fun s => { toViolation := v, suppressionReason := s.reason })))
    ∧ (applySuppressions config vs).1.length + (applySuppressions config vs).2.length
        = vs.length
    ∧ SortedBy locLE (applySuppressions config vs).1
    ∧ SortedBy locLES (applySuppressions config vs).2 := by
  have hpart := partitionSuppressions_eq (config.suppressions.getD []) vs
  have h1 : (applySuppressions config vs).1
      = stableSortBy locLE (partitionSuppressions (config.suppressions.getD []) vs).1 := rfl
  have h2 : (applySuppressions config vs).2
      = stableSortBy locLES (partitionSuppressions (config.suppressions.getD []) vs).2 := rfl
  have hp1 : (partitionSuppressions (config.suppressions.getD []) vs).1
      = vs.filter (fun v => (findSuppression (config.suppressions.getD []) v).isNone) :=
    congrArg Prod.fst hpart
  have hp2 : (partitionSuppressions (config.suppressions.getD []) vs).2
      = vs.filterMap (fun v => (findSuppression (config.suppressions.getD []) v).map
          (fun s => { toViolation := v, suppressionReason := s.reason })) :=
    congrArg Prod.snd hpart
  refine ⟨?_, ?_, ?_, ?_, ?_⟩
  · rw [h1, hp1]
    exact stableSortBy_perm locLE _
  · rw [h2, hp2]
    exact stableSortBy_perm locLES _
  · rw [h1, h2]
    rw [(stableSortBy_perm locLE _).length_eq, (stableSortBy_perm locLES _).length_eq]
    exact partitionSuppressions_length _ vs
  · rw [h1]
    exact stableSortBy_pairwise locLE locLE_total locLE_trans _
  · rw [h2]
    exact stableSortBy_pairwise locLES locLES_total locLES_trans _

/-- C5: the dependency-edge builder is deterministic — permuting the
processed file list never changes its result (also in the error case), a
successful result is sorted by the `(fromFile, line, toFile)` comparator
and is a permutation of the concatenated per-file extractions, and the
whole run's `(exitCode, report)` pair is likewise independent of the file
order. -/
theorem c5_build_edges_deterministic (fsys : String → FsEntry)
    (readF : String → ExtractOutcome) (repoRoot : String)
    (files₁ files₂ : List String) (hp : files₁.Perm files₂) :
    buildDependencyEdges fsys readF repoRoot files₁
        = buildDependencyEdges fsys readF repoRoot files₂
    ∧ (∀ l, buildDependencyEdges fsys readF repoRoot files₁ = .ok l →
        SortedBy edgeLE l
        ∧ ∃ raw, collectEdges fsys readF repoRoot files₁ = .ok raw ∧ l.Perm raw)
    ∧ (∀ loadC : Except JsErr TrussConfig,
        runCheck { loadConfig := loadC, discoverFiles := fun _ => .ok files₁,
                   fsys := fsys, readF := readF, repoRoot := repoRoot }
          = runCheck { loadConfig := loadC, discoverFiles := fun _ => .ok files₂,
                       fsys := fsys, readF := readF, repoRoot := repoRoot }) := by
  refine ⟨buildDependencyEdges_perm_eq fsys readF repoRoot hp, ?_, ?_⟩
  · intro l hl
    unfold buildDependencyEdges at hl
    cases hc : collectEdges fsys readF repoRoot files₁ with
    | error e => rw [hc] at hl; simp [Except.map] at hl
    | ok raw =>
      rw [hc] at hl
      simp only [Except.map, Except.ok.injEq] at hl
      subst hl
      exact ⟨stableSortBy_pairwise edgeLE edgeLE_total edgeLE_trans raw,
        raw, rfl, stableSortBy_perm edgeLE raw⟩
  · intro loadC
    cases loadC with
    | error e => rfl
    | ok config =>
      simp only [runCheck, tryRunCheck]
      rw [buildDependencyEdges_perm_eq fsys readF repoRoot hp, hp.length_eq]
      by_cases h0 : files₂.length = 0
      · simp [h0]
      · rw [if_neg h0, if_neg h0]
        cases hb : buildDependencyEdges fsys readF repoRoot files₂ with
        | error e => rfl
        | ok eds =>
          simp only [hb]
          rw [successResult_length_congr config files₁ files₂ eds hp.length_eq]

/-- C5 witness: processing the demo files in either order builds the same
edge list. -/
theorem c5_build_edges_deterministic_witness :
    buildDependencyEdges fsysDemo readFGood "/repo" ["a.ts", "b.ts"]
      = buildDependencyEdges fsysDemo readFGood "/repo" ["b.ts", "a.ts"] :=
  (c5_build_edges_deterministic fsysDemo readFGood "/repo" ["a.ts", "b.ts"] ["b.ts", "a.ts"]
    (List.Perm.swap "b.ts" "a.ts" [])).1

/-- C3: `runCheck` always returns a pair and never propagates a failure:
when the pipeline completes (configuration loaded, a nonzero number of
files discovered, edges built), the result is the assembled
`successResult`, whose exit code is `OK` iff `unsuppressedCount = 0` and
is otherwise `VIOLATIONS`, with `totalCount` the sum of the two bucket
counts; a thrown `ConfigError` — from configuration loading or the
zero-files check — yields `CONFIG_ERROR` with the empty report, and any
other thrown error yields `INTERNAL_ERROR` with the empty report. -/
theorem c3_runcheck_exit_codes (env : CheckEnv) :
    (∀ config files edges,
      env.loadConfig = .ok config → env.discoverFiles config = .ok files →
      files.length ≠ 0 →
      buildDependencyEdges env.fsys env.readF env.repoRoot files = .ok edges →
      runCheck env = successResult config files edges
      ∧ ((successResult config files edges).1 = ExitCode.OK
          ↔ (successResult config files edges).2.summary.unsuppressedCount = 0)
      ∧ ((successResult config files edges).1 = ExitCode.OK
          ∨ (successResult config files edges).1 = ExitCode.VIOLATIONS)
      ∧ (successResult config files edges).2.summary.totalCount
          = (successResult config files edges).2.summary.unsuppressedCount
            + (successResult config files edges).2.summary.suppressedCount)
    ∧ (tryRunCheck env = .error .configErr →
        runCheck env = (ExitCode.CONFIG_ERROR, emptyReport))
    ∧ (tryRunCheck env = .error .otherErr →
        runCheck env = (ExitCode.INTERNAL_ERROR, emptyReport))
    ∧ (env.loadConfig = .error .configErr →
        runCheck env = (ExitCode.CONFIG_ERROR, emptyReport))
    ∧ (∀ config, env.loadConfig = .ok config → env.discoverFiles config = .ok [] →
        runCheck env = (ExitCode.CONFIG_ERROR, emptyReport)) := by
  refine ⟨?_, ?_, ?_, ?_, ?_⟩
  · intro config files edges h1 h2 h3 h4
    have hrc : runCheck env = successResult config files edges := by
      simp only [runCheck, tryRunCheck, h1, h2, h4, if_neg h3]
    refine ⟨hrc, ?_, ?_, rfl⟩
    · have hc : (successResult config files edges).1
          = (if (applySuppressions config (evaluateRules config edges).1).1.length > 0
             then ExitCode.VIOLATIONS else ExitCode.OK) := rfl
      have hn : (successResult config files edges).2.summary.unsuppressedCount
          = (applySuppressions config (evaluateRules config edges).1).1.length := rfl
      rw [hc, hn]
      by_cases hu : (applySuppressions config (evaluateRules config edges).1).1.length > 0
      · rw [if_pos hu]
        constructor
        · intro h; exact absurd h (by decide)
        · intro h; exact absurd h (by omega)
      · rw [if_neg hu]
        exact ⟨fun _ => by omega, fun _ => rfl⟩
    · have hc : (successResult config files edges).1
          = (if (applySuppressions config (evaluateRules config edges).1).1.length > 0
             then ExitCode.VIOLATIONS else ExitCode.OK) := rfl
      rw [hc]
      by_cases hu : (applySuppressions config (evaluateRules config edges).1).1.length > 0
      · rw [if_pos hu]; exact Or.inr rfl
      · rw [if_neg hu]; exact Or.inl rfl
  · intro h
    unfold runCheck
    rw [h]
  · intro h
    unfold runCheck
    rw [h]
  · intro h
    simp only [runCheck, tryRunCheck, h]
  · intro config h1 h2
    simp only [runCheck, tryRunCheck, h1, h2]
    rfl

/-- C3 witness: a configuration-load failure produces `CONFIG_ERROR` and
the empty report. -/
theorem c3_runcheck_exit_codes_witness :
    runCheck envCfgErr = (ExitCode.CONFIG_ERROR, emptyReport) :=
  (c3_runcheck_exit_codes envCfgErr).2.2.2.1 rfl

/-- C1 (claim contradicted by the code): a per-file extraction failure is
only isolated for a missing file.  An existing file whose read throws (or
a throwing `statSync` during resolution) propagates to `runCheck`'s catch
clause, which aborts the whole run with `INTERNAL_ERROR` and the empty
report — the violations found in the other files are lost, as the
comparison with the identical run in which `b.ts` is simply missing
shows. -/
theorem c1_unreadable_file_aborts_run :
    parseImportsFromFile envBad.fsys envBad.readF envBad.repoRoot "b.ts" = .error .otherErr
    ∧ runCheck envBad = (ExitCode.INTERNAL_ERROR, emptyReport)
    ∧ runCheck envStat = (ExitCode.INTERNAL_ERROR, emptyReport)
    ∧ (runCheck envGood).1 = ExitCode.VIOLATIONS
    ∧ (runCheck envGood).2.summary.unsuppressedCount = 1 := by
  refine ⟨rfl, by decide, by decide, by decide, by decide⟩

/-- C10: `createGraphEdge` returns the edge made of its three arguments,
appends it exactly once at the end of the source node's outgoing list and
of the target node's incoming list, and changes nothing else — no other
field of either node, no other node, and not the store's length. -/
theorem c10_create_graph_edge_frame (store : List GraphNode) (i j : Nat)
    (m : DependencyEdge) :
    ((createGraphEdge store i j m).1).«from» = i
    ∧ ((createGraphEdge store i j m).1).«to» = j
    ∧ ((createGraphEdge store i j m).1).meta = m
    ∧ ((createGraphEdge store i j m).2).length = store.length
    ∧ (∀ k, k ≠ i → k ≠ j → ((createGraphEdge store i j m).2)[k]? = store[k]?)
    ∧ (i ≠ j →
        ((createGraphEdge store i j m).2)[i]?
          = (store[i]?).map (fun n =>
              { n with outgoing := n.outgoing ++ [(createGraphEdge store i j m).1] })
        ∧ ((createGraphEdge store i j m).2)[j]?
          = (store[j]?).map (fun n =>
              { n with incoming := n.incoming ++ [(createGraphEdge store i j m).1] }))
    ∧ (i = j →
        ((createGraphEdge store i j m).2)[i]?
          = (store[i]?).map (fun n =>
              { n with outgoing := n.outgoing ++ [(createGraphEdge store i j m).1],
                       incoming := n.incoming ++ [(createGraphEdge store i j m).1] })) := by
  refine ⟨rfl, rfl, rfl, ?_, ?_, ?_, ?_⟩
  · show (updateNode (updateNode store i _) j _).length = store.length
    rw [updateNode_length, updateNode_length]
  · intro k hki hkj
    show (updateNode (updateNode store i _) j _)[k]? = store[k]?
    rw [updateNode_getElem_ne _ _ _ _ hkj, updateNode_getElem_ne _ _ _ _ hki]
  · intro hij
    constructor
    · show (updateNode (updateNode store i _) j _)[i]? = _
      rw [updateNode_getElem_ne _ _ _ _ hij, updateNode_getElem_eq]
      rfl
    · show (updateNode (updateNode store i _) j _)[j]? = _
      rw [updateNode_getElem_eq, updateNode_getElem_ne _ _ _ _ (fun h => hij h.symm)]
      rfl
  · intro hij
    subst hij
    show (updateNode (updateNode store i _) i _)[i]? = _
    rw [updateNode_getElem_eq, updateNode_getElem_eq, Option.map_map]
    rfl

/-- C10 witness: creating an edge between the two demo nodes appends it to
node 0's outgoing list and node 1's incoming list. -/
theorem c10_create_graph_edge_frame_witness :
    ((createGraphEdge storeW 0 1 edgeAB).2)[0]?
      = (storeW[0]?).map (fun n =>
          { n with outgoing := n.outgoing ++ [(createGraphEdge storeW 0 1 edgeAB).1] })
    ∧ ((createGraphEdge storeW 0 1 edgeAB).2)[1]?
      = (storeW[1]?).map (fun n =>
          { n with incoming := n.incoming ++ [(createGraphEdge storeW 0 1 edgeAB).1] }) :=
  (c10_create_graph_edge_frame storeW 0 1 edgeAB).2.2.2.2.2.1 (by decide)

end Truss
